import Mathlib

/-!
Shallow embedding of the kmoddep kernel-module dependency resolver
(src/kerman.rs, src/modinfo.rs) and proofs about it.

Conventions of the embedding:
* Rust HashMap String -> Vec String becomes an association list
  (List (String × List String)); HashSet String becomes a duplicate-free
  List String built with an insert-if-absent operation.
* Rust panics (unwrap on None, todo!) and process::exit become error values
  of the inductive EmbErr, so that each failure branch of the source is a
  distinguishable outcome of a total Lean function.
* The unbounded recursion of KernelInfo::get_mod_dep is made total with an
  explicit fuel parameter; running out of fuel is the error EmbErr.outOfFuel,
  which models potential divergence and is distinct from the missing-key
  panic of the source.
* The external modinfo subprocess is an injected capability: a value of
  CmdResult (executed with given stdout, failed to execute, or produced
  output that does not decode as UTF-8).
* String primitives of Rust (split, split_once, rsplit_once, replace, trim,
  starts_with, ends_with, contains) are re-implemented structurally over
  the character list of the string, so that every definition evaluates by
  kernel reduction on concrete inputs.
* HashMap iteration order is unspecified in Rust; the embedding fixes it as
  the order of the association list.  Line iteration over a text blob is
  modelled as splitting at newline characters.
-/

namespace Kmoddep

/-- Failure outcomes of the embedded code.  Each constructor corresponds to
one fatal branch of the Rust source. -/
inductive EmbErr where
  /-- The unwrap of HashMap::get on a missing key in get_mod_dep. -/
  | missingKey
  /-- The todo arms: the modinfo subprocess fails to run or to decode. -/
  | externalFail
  /-- fuel exhaustion of the embedding (models divergence of the source). -/
  | outOfFuel
  /-- The unwrap of Path::file_name on a path without a file name in get_fext. -/
  | fileNameNone
  /-- The unwrap of split_once on a dependency base name without a dot. -/
  | depNameNoDot
  /-- The process exit in lsmod on a line without exactly six fields. -/
  | liveExit
  /-- The unwrap of a failed field parse in lsmod. -/
  | liveParse
deriving DecidableEq, Repr

/-- Outcome of invoking the external modinfo tool on a module name. -/
inductive CmdResult where
  /-- The subprocess ran and its stdout decoded to the given string. -/
  | ok (stdout : String)
  /-- Command::output() returned Err. -/
  | execFail
  /-- stdout was not valid UTF-8. -/
  | decodeFail
deriving DecidableEq, Repr

/-! ### String primitives (structural re-implementations of the Rust ones) -/

/-- Rust str::starts_with. -/
def strStartsWith (s pre : String) : Bool := pre.data.isPrefixOf s.data

/-- Rust str::ends_with. -/
def strEndsWith (s post : String) : Bool := post.data.isSuffixOf s.data

/-- Rust str::contains(char). -/
def strContainsChar (s : String) (c : Char) : Bool := s.data.contains c

/-- Is pat a contiguous sublist of s? -/
def listIsInfix (pat : List Char) : List Char → Bool
  | [] => pat.isEmpty
  | c :: rest => pat.isPrefixOf (c :: rest) || listIsInfix pat rest

/-- Rust str::contains(&str). -/
def strContainsSub (s pat : String) : Bool := listIsInfix pat.data s.data

/-- Worker for strSplitOn: fuel-driven scan; the fuel is always at least the
length of the remaining text, so the fuel-exhaustion arm is never reached. -/
def splitOnAux (sep : List Char) : Nat → List Char → List Char → List (List Char)
  | _, [], acc => [acc.reverse]
  | 0, s, acc => [acc.reverse ++ s]
  | fuel + 1, c :: rest, acc =>
    if sep.isPrefixOf (c :: rest) then
      acc.reverse :: splitOnAux sep fuel (List.drop sep.length (c :: rest)) []
    else
      splitOnAux sep fuel rest (c :: acc)

/-- Rust str::split(pattern) collected to a list (all pieces, left to right,
non-overlapping matches).  The separators used by the source never overlap
themselves, so this agrees with Rust on every input the source splits. -/
def strSplitOn (s sep : String) : List String :=
  if sep.data.isEmpty then [s]
  else (splitOnAux sep.data s.data.length s.data []).map String.mk

/-- Join a list of strings with a separator between elements. -/
def strIntercalate (sep : String) : List String → String
  | [] => ""
  | [a] => a
  | a :: rest => a ++ sep ++ strIntercalate sep rest

/-- Rust str::split_once: split at the first occurrence of the separator. -/
def strSplitOnce (s sep : String) : Option (String × String) :=
  match strSplitOn s sep with
  | [] => none
  | [_] => none
  | a :: rest => some (a, strIntercalate sep rest)

/-- Worker for strReplace, fuel-driven like splitOnAux. -/
def strReplaceAux (pat rep : List Char) : Nat → List Char → List Char
  | _, [] => []
  | 0, s => s
  | fuel + 1, c :: rest =>
    if pat.isPrefixOf (c :: rest) then
      rep ++ strReplaceAux pat rep fuel (List.drop pat.length (c :: rest))
    else
      c :: strReplaceAux pat rep fuel rest

/-- Rust str::replace (all occurrences, left to right). -/
def strReplace (s pat rep : String) : String :=
  if pat.data.isEmpty then s
  else String.mk (strReplaceAux pat.data rep.data s.data.length s.data)

/-- Rust str::trim (the source only ever trims ASCII whitespace). -/
def strTrim (s : String) : String :=
  String.mk (((s.data.dropWhile Char.isWhitespace).reverse.dropWhile Char.isWhitespace).reverse)

/-- Rust unsigned from_str (decimal): optional leading plus, at least one
digit, all digits, value below the bound of the type (else overflow error). -/
def rustParseDec (bound : Nat) (s : String) : Option Nat :=
  let t := if strStartsWith s "+" then s.data.drop 1 else s.data
  if t.isEmpty then none
  else if t.all Char.isDigit then
    let n := t.foldl (fun acc c => acc * 10 + (c.toNat - 48)) 0
    if n < bound then some n else none
  else none

/-- Hex digit test as accepted by Rust from_str_radix(_, 16). -/
def isHexDigitCh (c : Char) : Bool :=
  c.isDigit || ('a' ≤ c && c ≤ 'f') || ('A' ≤ c && c ≤ 'F')

/-- Value of a hex digit. -/
def hexVal (c : Char) : Nat :=
  if c.isDigit then c.toNat - 48 else if 'a' ≤ c then c.toNat - 87 else c.toNat - 55

/-- Rust unsigned from_str_radix(_, 16): optional leading plus, at least one
hex digit, all hex digits, value below the bound of the type. -/
def rustParseHex (bound : Nat) (s : String) : Option Nat :=
  let t := if strStartsWith s "+" then s.data.drop 1 else s.data
  if t.isEmpty then none
  else if t.all isHexDigitCh then
    let n := t.foldl (fun acc c => acc * 16 + hexVal c) 0
    if n < bound then some n else none
  else none

/-- Rust str::strip_suffix: Some with the suffix removed iff it is a suffix. -/
def stripSuffixOpt (s suf : String) : Option String :=
  if strEndsWith s suf then some (String.mk (s.data.take (s.data.length - suf.data.length)))
  else none

/-- Rust str::strip_prefix: Some with the prefix removed iff it is a prefix. -/
def stripPrefixOpt (s pre : String) : Option String :=
  if strStartsWith s pre then some (String.mk (s.data.drop pre.data.length))
  else none

/-! ### The dependency index (KernelInfo.deplist) -/

/-- The dependency index: module path -> list of dependency paths.
Association-list model of the HashMap in KernelInfo. -/
abbrev Index := List (String × List String)

/-- HashMap::get on the association list (first binding wins). -/
def idxFind (idx : Index) (k : String) : Option (List String) :=
  (idx.find? (fun p => p.1 == k)).map Prod.snd

/-- HashSet::insert on the list model: add the element if absent. -/
def insertMod (mods : List String) (m : String) : List String :=
  if m ∈ mods then mods else mods ++ [m]

/-- HashMap::insert on the association-list model: replace any old binding. -/
def mapInsert (m : Index) (k : String) (v : List String) : Index :=
  m.filter (fun p => !(p.1 == k)) ++ [(k, v)]

/-- The in-memory state of KernelInfo that the in-scope code reads: the
module extension, the dependency index and the reverse lookup set.
(version and the filesystem paths only feed the out-of-scope I/O.) -/
structure KernelInfo where
  ext : String
  deplist : Index
  lookup_deplist : List String
deriving DecidableEq, Repr

/-! ### Descriptor parsing (KernelInfo::load_deps, get_fext) -/

/-- Rust Path::file_name of a path string: the last real component, or none
for an empty path or a path ending in a parent-directory component. -/
def fileNameOpt (p : String) : Option String :=
  let comps := (strSplitOn p "/").filter (fun c => c ≠ "" ∧ c ≠ ".")
  match comps.getLast? with
  | none => none
  | some c => if c = ".." then none else some c

/-- KernelInfo::get_fext: ".ko" followed by whatever comes after the last
".ko" of the file name (rsplit_once); none models the unwrap panic when the
path has no file name. -/
def get_fext (fname : Option String) : Option String :=
  fname.map (fun f =>
    let parts := strSplitOn f ".ko"
    ".ko" ++ (if 2 ≤ parts.length then parts.getLastD "" else ""))

/-- Base name of a dependency path as indexed into lookup_deplist:
take the last segment of the split at every slash (the unwrap there never
fails, a split is never empty), then the unwrap of split_once at the first
dot, keeping the part before it.
none models the unwrap panic when the base name has no dot. -/
def depNameOfPath (p : String) : Option String :=
  (strSplitOnce ((strSplitOn p "/").getLastD "") ".").map Prod.fst

/-- One line of the loop body of KernelInfo::load_deps. -/
def loadLine (ki : KernelInfo) (line : String) : Except EmbErr KernelInfo :=
  match strSplitOnce line ":" with
  | none => Except.ok ki
  | some sl =>
    match (if ki.ext = "" then get_fext (fileNameOpt (strTrim sl.1)) else some ki.ext) with
    | none => Except.error EmbErr.fileNameNone
    | some ext =>
      if strTrim sl.2 = "" then
        Except.ok { ext := ext, deplist := mapInsert ki.deplist (strTrim sl.1) [],
                    lookup_deplist := ki.lookup_deplist }
      else
        match (strSplitOn (strTrim sl.2) " ").mapM depNameOfPath with
        | none => Except.error EmbErr.depNameNoDot
        | some deplist_idx =>
          Except.ok { ext := ext,
                      deplist := mapInsert ki.deplist (strTrim sl.1)
                        (strSplitOn (strTrim sl.2) " "),
                      lookup_deplist := deplist_idx.foldl insertMod ki.lookup_deplist }

/-- The fold of KernelInfo::load_deps over the descriptor lines. -/
def loadDepsAux (ki : KernelInfo) : List String → Except EmbErr KernelInfo
  | [] => Except.ok ki
  | line :: rest =>
    match loadLine ki line with
    | Except.error e => Except.error e
    | Except.ok ki' => loadDepsAux ki' rest

/-- KernelInfo::load_deps over an already line-split descriptor. -/
def loadDepsL (lines : List String) : Except EmbErr KernelInfo :=
  loadDepsAux { ext := "", deplist := [], lookup_deplist := [] } lines

/-- KernelInfo::load_deps on the descriptor file content (the validity check
and the file read are out-of-scope I/O). -/
def load_deps (content : String) : Except EmbErr KernelInfo :=
  loadDepsL (strSplitOn content "\n")

/-! ### Name resolution (KernelInfo::expand_module_name) -/

/-- The extension-normalized name: append the module extension when absent. -/
def extName (ki : KernelInfo) (name : String) : String :=
  if strEndsWith name ki.ext then name else name ++ ki.ext

/-- The fully normalized name used for suffix scanning: extension appended,
and a "/" prefix when the name has no directory component (so that the
suffix match anchors at a path boundary). -/
def normName (ki : KernelInfo) (name : String) : String :=
  let m0 := extName ki name
  if !strStartsWith m0 "kernel/" && !strContainsChar m0 '/' then "/" ++ m0 else m0

/-- One space-stripped line of modinfo output: when it starts with
"filename:/" and contains "/kernel/", reconstruct the candidate key
"kernel/" ++ (part after the first "/kernel/") and accept it only when it
is a key of the index. -/
def modinfoLineKey (ki : KernelInfo) (line : String) : Option String :=
  if strStartsWith line "filename:/" = true ∧ strContainsSub line "/kernel/" = true then
    if (ki.deplist.map Prod.fst).contains ("kernel/" ++ ((strSplitOn line "/kernel/").getD 1 "")) then
      some ("kernel/" ++ ((strSplitOn line "/kernel/").getD 1 ""))
    else none
  else none

/-- The modinfo-output scan of expand_module_name: first space-stripped line
that yields an accepted candidate key. -/
def findModinfoKey (ki : KernelInfo) (data : String) : Option String :=
  ((strSplitOn data "\n").map (fun el => strReplace el " " "")).findSome? (modinfoLineKey ki)

/-- KernelInfo::expand_module_name.  cmdres is the injected outcome of
running modinfo on the original name; the two todo arms of the source
(spawn failure, non-UTF-8 output) are the error EmbErr.externalFail. -/
def expand_module_name (ki : KernelInfo) (cmdres : CmdResult) (name : String) :
    Except EmbErr String :=
  match (if strStartsWith (extName ki name) "kernel/" then none
         else (ki.deplist.map Prod.fst).find? (fun fmodname =>
           strEndsWith fmodname (normName ki name) ||
           strEndsWith fmodname (strReplace (normName ki name) "_" "-"))) with
  | some fmodname => Except.ok fmodname
  | none =>
    match cmdres with
    | CmdResult.execFail => Except.error EmbErr.externalFail
    | CmdResult.decodeFail => Except.error EmbErr.externalFail
    | CmdResult.ok data =>
      match findModinfoKey ki data with
      | some fmodname => Except.ok fmodname
      | none => Except.ok name

/-! ### Transitive closure (KernelInfo::get_mod_dep, get_deps_for) -/

/-- The inner for-loop of get_mod_dep (over the dependencies of a direct
dependency): insert each and recurse via the continuation rec. -/
def getModDepInner (rec : String → List String → Except EmbErr (List String)) :
    List String → List String → Except EmbErr (List String)
  | [], mods => Except.ok mods
  | d_dep :: rest, mods =>
    match rec d_dep (insertMod mods d_dep) with
    | Except.error e => Except.error e
    | Except.ok mods' => getModDepInner rec rest mods'

/-- The outer for-loop of get_mod_dep (over the direct dependencies of the
module): insert the dependency, look up its own dependencies (unwrap), and
when that list is non-empty walk it with the inner loop. -/
def getModDepOuter (idx : Index) (rec : String → List String → Except EmbErr (List String)) :
    List String → List String → Except EmbErr (List String)
  | [], mods => Except.ok mods
  | mdep :: rest, mods =>
    let mods' := insertMod mods mdep
    match idxFind idx mdep with
    | none => Except.error EmbErr.missingKey
    | some d_mdeps =>
      match (if d_mdeps.isEmpty then Except.ok mods'
             else getModDepInner rec d_mdeps mods') with
      | Except.error e => Except.error e
      | Except.ok mods'' => getModDepOuter idx rec rest mods''

/-- KernelInfo::get_mod_dep with fuel: look up the module (unwrap), then run
the outer loop, recursing with one unit of fuel less. -/
def get_mod_dep (idx : Index) : Nat → String → List String → Except EmbErr (List String)
  | 0 => fun _ _ => Except.error EmbErr.outOfFuel
  | fuel + 1 => fun name mods =>
    match idxFind idx name with
    | none => Except.error EmbErr.missingKey
    | some mdeps => getModDepOuter idx (get_mod_dep idx fuel) mdeps mods

/-- The loop of KernelInfo::get_deps_for: resolve each requested name, skip
it when the resolved name has no path separator, otherwise collect the
closure starting from an empty set and insert it into the result map. -/
def getDepsForAux (ki : KernelInfo) (cmd : String → CmdResult) (fuel : Nat) :
    List String → Index → Except EmbErr Index
  | [], mod_tree => Except.ok mod_tree
  | kmodname :: rest, mod_tree =>
    match expand_module_name ki (cmd kmodname) kmodname with
    | Except.error e => Except.error e
    | Except.ok r_kmodname =>
      if strContainsChar r_kmodname '/' then
        match get_mod_dep ki.deplist fuel r_kmodname [] with
        | Except.error e => Except.error e
        | Except.ok mod_deps =>
          getDepsForAux ki cmd fuel rest (mapInsert mod_tree r_kmodname mod_deps)
      else getDepsForAux ki cmd fuel rest mod_tree

/-- KernelInfo::get_deps_for.  cmd injects, per requested name, the outcome
of the external modinfo invocation. -/
def get_deps_for (ki : KernelInfo) (cmd : String → CmdResult) (fuel : Nat)
    (names : List String) : Except EmbErr Index :=
  getDepsForAux ki cmd fuel names []

/-! ### Live module table (modinfo.rs, lsmod) -/

/-- One record of the live module table (/proc/modules). -/
structure ModInfo where
  name : String
  mem_size : Nat
  mem_offset : Nat
  instances : Nat
  dependencies : List String
deriving DecidableEq, Repr

/-- Parse one line of the live module table exactly as the loop body of
lsmod does: split on single spaces, require exactly six fields
(process::exit(1) otherwise, EmbErr.liveExit), then parse size (usize),
instance count (u8), the comma-terminated dependents field (a single "-"
means none), and the 0x-prefixed hex offset (usize); every failing unwrap
is EmbErr.liveParse. -/
def parseLsmodLine (line : String) : Except EmbErr ModInfo :=
  let mod_data := strSplitOn line " "
  if mod_data.length ≠ 6 then Except.error EmbErr.liveExit
  else
    match rustParseDec (2 ^ 64) (mod_data.getD 1 "") with
    | none => Except.error EmbErr.liveParse
    | some mem_size =>
      match rustParseDec (2 ^ 8) (mod_data.getD 2 "") with
      | none => Except.error EmbErr.liveParse
      | some instances =>
        match (if mod_data.getD 3 "" = "-" then some []
               else (stripSuffixOpt (mod_data.getD 3 "") ",").map
                 (fun s => strSplitOn s ",")) with
        | none => Except.error EmbErr.liveParse
        | some dependencies =>
          match (stripPrefixOpt (mod_data.getD 5 "") "0x").bind (rustParseHex (2 ^ 64)) with
          | none => Except.error EmbErr.liveParse
          | some mem_offset =>
            Except.ok { name := mod_data.getD 0 "", mem_size := mem_size,
                        mem_offset := mem_offset, instances := instances,
                        dependencies := dependencies }

/-- lsmod over the already line-split live module table (the file I/O and
the BufReader line splitting are out-of-scope collaborators): parse each
line in order, aborting the whole read on the first fatal line. -/
def lsmodFromLines : List String → Except EmbErr (List ModInfo)
  | [] => Except.ok []
  | line :: rest =>
    match parseLsmodLine line with
    | Except.error e => Except.error e
    | Except.ok mi =>
      match lsmodFromLines rest with
      | Except.error e => Except.error e
      | Except.ok curr_mods => Except.ok (mi :: curr_mods)

/-! ### Specification-side predicates about the index -/

/-- Direct dependency edge of the index: b is listed among the dependencies of a. -/
def Edge (idx : Index) (a b : String) : Prop :=
  ∃ l, idxFind idx a = some l ∧ b ∈ l

/-- Some member of L reaches x along dependency edges in zero or more steps. -/
def ReachL (idx : Index) (L : List String) (x : String) : Prop :=
  ∃ m ∈ L, Relation.ReflTransGen (Edge idx) m x

/-- Internal consistency of the index: every listed dependency is itself a
key of the index. -/
def Consistent (idx : Index) : Bool :=
  idx.all (fun p => p.2.all (fun b => (idxFind idx b).isSome))

/-- h is a rank function witnessing acyclicity: the rank strictly drops
along every dependency edge of every entry. -/
def rankOk (idx : Index) (h : String → Nat) : Bool :=
  idx.all (fun p => p.2.all (fun b => decide (h b < h p.1)))

/-! ### Concrete contexts used in example instantiations -/

/-- Diamond-shaped dependency index: A depends on B and C, both of which
depend on D. -/
def dIdx : Index :=
  [("kernel/A.ko", ["kernel/B.ko", "kernel/C.ko"]),
   ("kernel/B.ko", ["kernel/D.ko"]),
   ("kernel/C.ko", ["kernel/D.ko"]),
   ("kernel/D.ko", [])]

/-- KernelInfo over the diamond index. -/
def dKi : KernelInfo := { ext := ".ko", deplist := dIdx, lookup_deplist := [] }

/-- A rank function showing the diamond index acyclic. -/
def dRank : String → Nat := fun s =>
  if s = "kernel/A.ko" then 3
  else if s = "kernel/B.ko" then 2
  else if s = "kernel/C.ko" then 2
  else 1

/-- External lookup stub: modinfo runs and prints nothing. -/
def emptyCmd : String → CmdResult := fun _ => CmdResult.ok ""

/-- A context with an empty index. -/
def nilKi : KernelInfo := { ext := ".ko", deplist := [], lookup_deplist := [] }

/-- A context where an earlier key matches only the dash-substituted variant
of a queried name while a later key matches the exact normalized name. -/
def tierKi : KernelInfo :=
  { ext := ".ko", deplist := [("mm/sun-rpc.ko", []), ("net/sun_rpc.ko", [])],
    lookup_deplist := [] }

/-- A context with two canonical path-qualified keys. -/
def canKi : KernelInfo :=
  { ext := ".ko", deplist := [("kernel/a/b.ko", []), ("kernel/c/d.ko", [])],
    lookup_deplist := [] }

/-! ### Helper lemmas about the index and the set model -/

theorem mem_insertMod {mods : List String} {m x : String} :
    x ∈ insertMod mods m ↔ x = m ∨ x ∈ mods := by
  by_cases h : m ∈ mods
  · simp only [insertMod, if_pos h]
    constructor
    · exact Or.inr
    · rintro (rfl | hx)
      · exact h
      · exact hx
  · simp [insertMod, if_neg h, List.mem_append, or_comm]

theorem insertMod_nodup {mods : List String} {m : String} (h : mods.Nodup) :
    (insertMod mods m).Nodup := by
  by_cases hm : m ∈ mods
  · simpa [insertMod, if_pos hm] using h
  · simp only [insertMod, if_neg hm]
    rw [List.nodup_append]
    exact ⟨h, List.nodup_singleton m, by simpa [List.disjoint_singleton] using hm⟩

theorem idxFind_entry {idx : Index} {k : String} {l : List String}
    (hf : idxFind idx k = some l) : ∃ p, p ∈ idx ∧ p.1 = k ∧ p.2 = l := by
  unfold idxFind at hf
  rcases hp : idx.find? (fun p => p.1 == k) with _ | p
  · rw [hp] at hf
    simp at hf
  · rw [hp] at hf
    simp only [Option.map_some'] at hf
    refine ⟨p, List.mem_of_find?_eq_some hp, ?_, Option.some.inj hf⟩
    simpa using List.find?_some hp

theorem consistent_lookup {idx : Index} (hc : Consistent idx = true) {k b : String}
    {l : List String} (hf : idxFind idx k = some l) (hb : b ∈ l) :
    (idxFind idx b).isSome := by
  obtain ⟨p, hp, -, h2⟩ := idxFind_entry hf
  have h3 := List.all_eq_true.mp hc p hp
  exact List.all_eq_true.mp h3 b (h2 ▸ hb)

theorem rank_lt {idx : Index} {h : String → Nat} (hr : rankOk idx h = true)
    {k b : String} {l : List String} (hf : idxFind idx k = some l) (hb : b ∈ l) :
    h b < h k := by
  obtain ⟨p, hp, h1, h2⟩ := idxFind_entry hf
  have h3 := List.all_eq_true.mp hr p hp
  have h4 := List.all_eq_true.mp h3 b (h2 ▸ hb)
  rw [← h1]
  exact of_decide_eq_true h4

theorem edge_iff {idx : Index} {a : String} {l : List String}
    (hf : idxFind idx a = some l) (b : String) : Edge idx a b ↔ b ∈ l := by
  constructor
  · rintro ⟨l', hf', hb⟩
    rw [hf] at hf'
    cases hf'
    exact hb
  · intro hb
    exact ⟨l, hf, hb⟩

theorem reach_of_empty {idx : Index} {a x : String} (hf : idxFind idx a = some []) :
    Relation.ReflTransGen (Edge idx) a x ↔ x = a := by
  constructor
  · intro hr
    rcases Relation.ReflTransGen.cases_head hr with h | ⟨c, hc, -⟩
    · exact h.symm
    · rw [edge_iff hf] at hc
      cases hc
  · rintro rfl
    exact Relation.ReflTransGen.refl

theorem transGen_of_empty {idx : Index} {a x : String} (hf : idxFind idx a = some []) :
    ¬ Relation.TransGen (Edge idx) a x := by
  intro ht
  obtain ⟨b, hb, -⟩ := Relation.TransGen.head'_iff.mp ht
  rw [edge_iff hf] at hb
  cases hb

theorem transGen_iff_reachL {idx : Index} {a x : String} {l : List String}
    (hf : idxFind idx a = some l) :
    Relation.TransGen (Edge idx) a x ↔ ReachL idx l x := by
  rw [Relation.TransGen.head'_iff]
  constructor
  · rintro ⟨b, hb, hr⟩
    exact ⟨b, (edge_iff hf b).mp hb, hr⟩
  · rintro ⟨b, hb, hr⟩
    exact ⟨b, (edge_iff hf b).mpr hb, hr⟩

theorem reachL_nil {idx : Index} {x : String} : ReachL idx [] x ↔ False := by
  simp [ReachL]

theorem reachL_cons {idx : Index} {m : String} {L : List String} {x : String} :
    ReachL idx (m :: L) x ↔
      (x = m ∨ Relation.TransGen (Edge idx) m x) ∨ ReachL idx L x := by
  unfold ReachL
  rw [← Relation.reflTransGen_iff_eq_or_transGen]
  constructor
  · rintro ⟨m', hm', hr⟩
    rcases List.mem_cons.mp hm' with rfl | hm'
    · exact Or.inl hr
    · exact Or.inr ⟨m', hm', hr⟩
  · rintro (hr | ⟨m', hm', hr⟩)
    · exact ⟨m, List.mem_cons_self m L, hr⟩
    · exact ⟨m', List.mem_cons_of_mem m hm', hr⟩

/-! ### Characterization of the closure traversal -/

theorem getModDepInner_char {idx : Index} {h : String → Nat}
    (rec : String → List String → Except EmbErr (List String)) (K : Nat)
    (Hrec : ∀ d m, (idxFind idx d).isSome → h d + 1 ≤ K →
      ∃ r, rec d m = Except.ok r ∧ (m.Nodup → r.Nodup) ∧
        ∀ x, x ∈ r ↔ x ∈ m ∨ Relation.TransGen (Edge idx) d x) :
    ∀ ddeps mods, (∀ d ∈ ddeps, (idxFind idx d).isSome ∧ h d + 1 ≤ K) →
      ∃ r, getModDepInner rec ddeps mods = Except.ok r ∧ (mods.Nodup → r.Nodup) ∧
        ∀ x, x ∈ r ↔ x ∈ mods ∨ ReachL idx ddeps x := by
  intro ddeps
  induction ddeps with
  | nil =>
    intro mods _
    exact ⟨mods, rfl, id, by simp [reachL_nil]⟩
  | cons d rest ih =>
    intro mods hds
    obtain ⟨hid, hkd⟩ := hds d (List.mem_cons_self d rest)
    obtain ⟨r1, hr1, hn1, hx1⟩ := Hrec d (insertMod mods d) hid hkd
    obtain ⟨r2, hr2, hn2, hx2⟩ := ih r1 (fun d' hd' => hds d' (List.mem_cons_of_mem d hd'))
    refine ⟨r2, ?_, ?_, ?_⟩
    · simp only [getModDepInner, hr1]
      exact hr2
    · intro hn
      exact hn2 (hn1 (insertMod_nodup hn))
    · intro x
      rw [hx2 x, hx1 x, mem_insertMod, reachL_cons]
      tauto

theorem getModDepOuter_char {idx : Index} {h : String → Nat}
    (hc : Consistent idx = true) (hr : rankOk idx h = true)
    (rec : String → List String → Except EmbErr (List String)) (K : Nat)
    (Hrec : ∀ d m, (idxFind idx d).isSome → h d + 1 ≤ K →
      ∃ r, rec d m = Except.ok r ∧ (m.Nodup → r.Nodup) ∧
        ∀ x, x ∈ r ↔ x ∈ m ∨ Relation.TransGen (Edge idx) d x) :
    ∀ mdeps mods, (∀ m ∈ mdeps, (idxFind idx m).isSome ∧ h m ≤ K) →
      ∃ r, getModDepOuter idx rec mdeps mods = Except.ok r ∧ (mods.Nodup → r.Nodup) ∧
        ∀ x, x ∈ r ↔ x ∈ mods ∨ ReachL idx mdeps x := by
  intro mdeps
  induction mdeps with
  | nil =>
    intro mods _
    exact ⟨mods, rfl, id, by simp [reachL_nil]⟩
  | cons mdep rest ih =>
    intro mods hms
    obtain ⟨him, hkm⟩ := hms mdep (List.mem_cons_self mdep rest)
    obtain ⟨d_mdeps, hdm⟩ := Option.isSome_iff_exists.mp him
    by_cases hemp : d_mdeps = []
    · subst hemp
      obtain ⟨r2, hr2, hn2, hx2⟩ :=
        ih (insertMod mods mdep) (fun m' hm' => hms m' (List.mem_cons_of_mem mdep hm'))
      refine ⟨r2, ?_, ?_, ?_⟩
      · simp only [getModDepOuter, hdm, List.isEmpty_nil, if_true]
        exact hr2
      · intro hn
        exact hn2 (insertMod_nodup hn)
      · intro x
        rw [hx2 x, mem_insertMod, reachL_cons]
        have hnt := transGen_of_empty (x := x) hdm
        tauto
    · have hne : d_mdeps.isEmpty = false := by
        simpa [List.isEmpty_iff] using hemp
      obtain ⟨r1, hr1, hn1, hx1⟩ :=
        getModDepInner_char rec K Hrec d_mdeps (insertMod mods mdep)
          (fun d hd => ⟨consistent_lookup hc hdm hd,
            by have := rank_lt hr hdm hd; omega⟩)
      obtain ⟨r2, hr2, hn2, hx2⟩ :=
        ih r1 (fun m' hm' => hms m' (List.mem_cons_of_mem mdep hm'))
      refine ⟨r2, ?_, ?_, ?_⟩
      · simp only [getModDepOuter, hdm, hne, Bool.false_eq_true, if_false, hr1]
        exact hr2
      · intro hn
        exact hn2 (hn1 (insertMod_nodup hn))
      · intro x
        rw [hx2 x, hx1 x, mem_insertMod, reachL_cons, transGen_iff_reachL hdm]
        tauto

theorem get_mod_dep_char {idx : Index} {h : String → Nat}
    (hc : Consistent idx = true) (hr : rankOk idx h = true) :
    ∀ fuel name mods mdeps, idxFind idx name = some mdeps → h name + 1 ≤ 2 * fuel →
      ∃ r, get_mod_dep idx fuel name mods = Except.ok r ∧ (mods.Nodup → r.Nodup) ∧
        ∀ x, x ∈ r ↔ x ∈ mods ∨ Relation.TransGen (Edge idx) name x := by
  intro fuel
  induction fuel with
  | zero =>
    intro name mods mdeps _ hb
    omega
  | succ f ih =>
    intro name mods mdeps hf hb
    have Hrec : ∀ d m, (idxFind idx d).isSome → h d + 1 ≤ 2 * f →
        ∃ r, get_mod_dep idx f d m = Except.ok r ∧ (m.Nodup → r.Nodup) ∧
          ∀ x, x ∈ r ↔ x ∈ m ∨ Relation.TransGen (Edge idx) d x := by
      intro d m hid hkd
      obtain ⟨l, hl⟩ := Option.isSome_iff_exists.mp hid
      exact ih d m l hl hkd
    obtain ⟨r, hrr, hn, hx⟩ :=
      getModDepOuter_char hc hr (get_mod_dep idx f) (2 * f) Hrec mdeps mods
        (fun m hm => ⟨consistent_lookup hc hf hm,
          by have := rank_lt hr hf hm; omega⟩)
    refine ⟨r, ?_, hn, ?_⟩
    · simp only [get_mod_dep, hf]
      exact hrr
    · intro x
      rw [hx x, transGen_iff_reachL hf]

theorem get_mod_dep_ok_find {idx : Index} {fuel : Nat} {name : String}
    {mods r : List String} (hg : get_mod_dep idx fuel name mods = Except.ok r) :
    (idxFind idx name).isSome := by
  cases fuel with
  | zero => simp [get_mod_dep] at hg
  | succ f =>
    cases hf : idxFind idx name with
    | none => simp [get_mod_dep, hf] at hg
    | some l => simp

/-! ### The missing-key panic is unreachable on a consistent index -/

theorem getModDepInner_no_missing {idx : Index}
    (rec : String → List String → Except EmbErr (List String))
    (Hrec : ∀ d m, (idxFind idx d).isSome → rec d m ≠ Except.error EmbErr.missingKey) :
    ∀ ddeps mods, (∀ d ∈ ddeps, (idxFind idx d).isSome) →
      getModDepInner rec ddeps mods ≠ Except.error EmbErr.missingKey := by
  intro ddeps
  induction ddeps with
  | nil =>
    intro mods _
    simp [getModDepInner]
  | cons d rest ih =>
    intro mods hds
    cases hres : rec d (insertMod mods d) with
    | error e =>
      simp only [getModDepInner, hres]
      intro heq
      apply Hrec d (insertMod mods d) (hds d (List.mem_cons_self d rest))
      rw [hres]
      exact heq
    | ok mods' =>
      simp only [getModDepInner, hres]
      exact ih mods' (fun d' hd' => hds d' (List.mem_cons_of_mem d hd'))

theorem getModDepOuter_no_missing {idx : Index} (hc : Consistent idx = true)
    (rec : String → List String → Except EmbErr (List String))
    (Hrec : ∀ d m, (idxFind idx d).isSome → rec d m ≠ Except.error EmbErr.missingKey) :
    ∀ mdeps mods, (∀ m ∈ mdeps, (idxFind idx m).isSome) →
      getModDepOuter idx rec mdeps mods ≠ Except.error EmbErr.missingKey := by
  intro mdeps
  induction mdeps with
  | nil =>
    intro mods _
    simp [getModDepOuter]
  | cons mdep rest ih =>
    intro mods hms
    obtain ⟨d_mdeps, hdm⟩ :=
      Option.isSome_iff_exists.mp (hms mdep (List.mem_cons_self mdep rest))
    by_cases hemp : d_mdeps = []
    · subst hemp
      simp only [getModDepOuter, hdm, List.isEmpty_nil, if_true]
      exact ih (insertMod mods mdep) (fun m' hm' => hms m' (List.mem_cons_of_mem mdep hm'))
    · have hne : d_mdeps.isEmpty = false := by
        simpa [List.isEmpty_iff] using hemp
      have hinner := getModDepInner_no_missing rec Hrec d_mdeps (insertMod mods mdep)
        (fun d hd => consistent_lookup hc hdm hd)
      cases hres : getModDepInner rec d_mdeps (insertMod mods mdep) with
      | error e =>
        simp only [getModDepOuter, hdm, hne, Bool.false_eq_true, if_false, hres]
        intro heq
        apply hinner
        rw [hres]
        exact heq
      | ok mods'' =>
        simp only [getModDepOuter, hdm, hne, Bool.false_eq_true, if_false, hres]
        exact ih mods'' (fun m' hm' => hms m' (List.mem_cons_of_mem mdep hm'))

theorem get_mod_dep_no_missing {idx : Index} (hc : Consistent idx = true) :
    ∀ fuel name mods, (idxFind idx name).isSome →
      get_mod_dep idx fuel name mods ≠ Except.error EmbErr.missingKey := by
  intro fuel
  induction fuel with
  | zero =>
    intro name mods _
    simp [get_mod_dep]
  | succ f ih =>
    intro name mods hs
    obtain ⟨mdeps, hf⟩ := Option.isSome_iff_exists.mp hs
    have houter := getModDepOuter_no_missing hc (get_mod_dep idx f)
      (fun d m hd => ih d m hd) mdeps mods (fun m hm => consistent_lookup hc hf hm)
    simp only [get_mod_dep, hf]
    exact houter

/-! ### Bookkeeping for get_deps_for -/

theorem getDepsForAux_inv (ki : KernelInfo) (cmd : String → CmdResult) (fuel : Nat) :
    ∀ names acc res,
      (∀ k deps, (k, deps) ∈ acc → get_mod_dep ki.deplist fuel k [] = Except.ok deps) →
      getDepsForAux ki cmd fuel names acc = Except.ok res →
      ∀ k deps, (k, deps) ∈ res → get_mod_dep ki.deplist fuel k [] = Except.ok deps := by
  intro names
  induction names with
  | nil =>
    intro acc res hacc hres
    simp only [getDepsForAux] at hres
    cases hres
    exact hacc
  | cons n rest ih =>
    intro acc res hacc hres
    simp only [getDepsForAux] at hres
    cases hexp : expand_module_name ki (cmd n) n with
    | error e =>
      rw [hexp] at hres
      cases hres
    | ok r =>
      simp only [hexp] at hres
      by_cases hsl : strContainsChar r '/' = true
      · rw [if_pos hsl] at hres
        cases hg : get_mod_dep ki.deplist fuel r [] with
        | error e =>
          rw [hg] at hres
          cases hres
        | ok ds =>
          rw [hg] at hres
          refine ih (mapInsert acc r ds) res ?_ hres
          intro k deps hk
          rcases List.mem_append.mp hk with hk | hk
          · exact hacc k deps (List.mem_filter.mp hk).1
          · rcases List.mem_singleton.mp hk with heq
            obtain ⟨rfl, rfl⟩ := Prod.mk.injEq .. ▸ And.intro (congrArg Prod.fst heq) (congrArg Prod.snd heq)
            exact hg
      · rw [if_neg hsl] at hres
        exact ih acc res hacc hres

/-! ### Lemmas about name resolution -/

theorem modinfoLineKey_mem {ki : KernelInfo} {line t : String}
    (h : modinfoLineKey ki line = some t) : t ∈ ki.deplist.map Prod.fst := by
  unfold modinfoLineKey at h
  split at h
  · split at h
    next hcont =>
      obtain rfl := Option.some.inj h
      exact List.mem_of_elem_eq_true hcont
    · cases h
  · cases h

theorem findModinfoKey_mem {ki : KernelInfo} {data t : String}
    (hf : findModinfoKey ki data = some t) : t ∈ ki.deplist.map Prod.fst := by
  obtain ⟨line, -, hsome⟩ := List.exists_of_findSome?_eq_some hf
  exact modinfoLineKey_mem hsome

theorem expand_ok_total (ki : KernelInfo) (out : String) (name : String) :
    ∃ r, expand_module_name ki (CmdResult.ok out) name = Except.ok r ∧
      (r ∈ ki.deplist.map Prod.fst ∨ r = name) := by
  unfold expand_module_name
  split
  next fmodname hfind =>
    refine ⟨fmodname, rfl, Or.inl ?_⟩
    split at hfind
    · cases hfind
    · exact List.mem_of_find?_eq_some hfind
  next hnone =>
    cases hmk : findModinfoKey ki out with
    | some k => exact ⟨k, by simp [hmk], Or.inl (findModinfoKey_mem hmk)⟩
    | none => exact ⟨name, by simp [hmk], Or.inr rfl⟩

theorem expand_scan_first_match (ki : KernelInfo) (cmdres : CmdResult) (name : String)
    (h1 : strStartsWith (extName ki name) "kernel/" = false)
    (h2 : ∃ k ∈ ki.deplist.map Prod.fst, strEndsWith k (normName ki name) = true) :
    ∃ k, expand_module_name ki cmdres name = Except.ok k ∧
      k ∈ ki.deplist.map Prod.fst ∧
      (strEndsWith k (normName ki name) = true ∨
       strEndsWith k (strReplace (normName ki name) "_" "-") = true) := by
  have hfind : ((ki.deplist.map Prod.fst).find? (fun fmodname =>
      strEndsWith fmodname (normName ki name) ||
      strEndsWith fmodname (strReplace (normName ki name) "_" "-"))).isSome := by
    rw [List.find?_isSome]
    obtain ⟨k, hk, he⟩ := h2
    exact ⟨k, hk, by simp [he]⟩
  obtain ⟨k, hk⟩ := Option.isSome_iff_exists.mp hfind
  refine ⟨k, ?_, List.mem_of_find?_eq_some hk, ?_⟩
  · unfold expand_module_name
    have hcond : ¬ (strStartsWith (extName ki name) "kernel/" = true) := by simp [h1]
    rw [if_neg hcond, hk]
  · simpa using List.find?_some hk

theorem expand_canonical_unchanged (ki : KernelInfo) (out : String) (k : String)
    (hext : strEndsWith k ki.ext = true)
    (hpre : strStartsWith k "kernel/" = true)
    (hfind : findModinfoKey ki out = none ∨ findModinfoKey ki out = some k) :
    expand_module_name ki (CmdResult.ok out) k = Except.ok k := by
  have hx : extName ki k = k := by simp [extName, hext]
  unfold expand_module_name
  rw [if_pos (by rw [hx]; exact hpre)]
  rcases hfind with hf | hf <;> simp [hf]

/-! ### Lemmas about descriptor loading -/

theorem get_fext_ne_empty {fname : Option String} {e : String}
    (h : get_fext fname = some e) : e ≠ "" := by
  cases fname with
  | none => cases h
  | some f =>
    simp only [get_fext, Option.map_some'] at h
    obtain rfl := Option.some.inj h
    intro hc
    have hlen := congrArg String.length hc
    rw [String.length_append] at hlen
    have h3 : (".ko" : String).length = 3 := rfl
    have h0 : ("" : String).length = 0 := rfl
    omega

theorem loadLine_ext_preserved {ki ki' : KernelInfo} {line : String}
    (hne : ki.ext ≠ "") (h : loadLine ki line = Except.ok ki') : ki'.ext = ki.ext := by
  unfold loadLine at h
  split at h
  · cases h
    rfl
  · split at h
    · cases h
    · next ext heq =>
      rw [if_neg hne] at heq
      obtain rfl := Option.some.inj heq
      split at h
      · cases h
        rfl
      · split at h
        · cases h
        · cases h
          rfl

theorem loadDepsAux_ext_preserved : ∀ (lines : List String) (ki ki' : KernelInfo),
    ki.ext ≠ "" → loadDepsAux ki lines = Except.ok ki' → ki'.ext = ki.ext := by
  intro lines
  induction lines with
  | nil =>
    intro ki ki' _ h
    cases h
    rfl
  | cons a rest ih =>
    intro ki ki' hne h
    simp only [loadDepsAux] at h
    cases hl : loadLine ki a with
    | error e =>
      rw [hl] at h
      cases h
    | ok ki1 =>
      rw [hl] at h
      have he1 := loadLine_ext_preserved hne hl
      have := ih ki1 ki' (by rw [he1]; exact hne) h
      rw [this, he1]

theorem loadDepsL_ext_first {line l r : String} {rest : List String} {ki : KernelInfo}
    (hsplit : strSplitOnce line ":" = some (l, r))
    (hok : loadDepsL (line :: rest) = Except.ok ki) :
    some ki.ext = get_fext (fileNameOpt (strTrim l)) := by
  unfold loadDepsL at hok
  simp only [loadDepsAux] at hok
  cases hl : loadLine { ext := "", deplist := [], lookup_deplist := [] } line with
  | error e =>
    rw [hl] at hok
    cases hok
  | ok ki1 =>
    rw [hl] at hok
    unfold loadLine at hl
    simp only [hsplit] at hl
    simp only [if_true] at hl
    cases hg : get_fext (fileNameOpt (strTrim l)) with
    | none =>
      simp only [hg] at hl
      exact Except.noConfusion hl
    | some e =>
      simp only [hg] at hl
      have hext1 : ki1.ext = e := by
        split at hl
        · cases hl
          rfl
        · split at hl
          · cases hl
          · cases hl
            rfl
      have hene : e ≠ "" := get_fext_ne_empty hg
      have hpre := loadDepsAux_ext_preserved rest ki1 ki (by rw [hext1]; exact hene) hok
      rw [hpre, hext1]

/-! ### Lemmas about the live module table -/

theorem lsmodFromLines_error : ∀ (ls1 ls2 : List String) (line : String) (e : EmbErr),
    parseLsmodLine line = Except.error e →
    ∃ e2, lsmodFromLines (ls1 ++ line :: ls2) = Except.error e2 := by
  intro ls1
  induction ls1 with
  | nil =>
    intro ls2 line e hline
    exact ⟨e, by simp only [List.nil_append, lsmodFromLines, hline]⟩
  | cons a rest ih =>
    intro ls2 line e hline
    obtain ⟨e2, he2⟩ := ih ls2 line e hline
    cases ha : parseLsmodLine a with
    | error ea =>
      exact ⟨ea, by simp only [List.cons_append, lsmodFromLines, ha]⟩
    | ok ma =>
      exact ⟨e2, by simp only [List.cons_append, lsmodFromLines, ha, List.append_eq, he2]⟩

theorem parseLsmodLine_six {line : String}
    (h : (strSplitOn line " ").length ≠ 6) :
    parseLsmodLine line = Except.error EmbErr.liveExit := by
  simp [parseLsmodLine, if_pos h]

/-! ### Skipping of unresolved names in get_deps_for -/

theorem getDepsForAux_skip (ki : KernelInfo) (cmd : String → CmdResult) (fuel : Nat)
    (u r : String) (hres : expand_module_name ki (cmd u) u = Except.ok r)
    (hnos : strContainsChar r '/' = false) :
    ∀ (l1 l2 : List String) (acc : Index),
      getDepsForAux ki cmd fuel (l1 ++ u :: l2) acc =
      getDepsForAux ki cmd fuel (l1 ++ l2) acc := by
  intro l1
  induction l1 with
  | nil =>
    intro l2 acc
    simp only [List.nil_append, getDepsForAux, hres]
    rw [if_neg (by simp [hnos])]
  | cons n l1' ih =>
    intro l2 acc
    simp only [List.cons_append, getDepsForAux]
    split
    · rfl
    · split
      · split
        · rfl
        · exact ih l2 (mapInsert acc _ _)
      · exact ih l2 acc

/-! ### The claims -/

/-- Claim C1 (confirmed): for every internally consistent dependency index
whose dependency relation is acyclic (witnessed by a rank function) and
enough fuel, and for every request list, every entry (k, deps) of a
successful get_deps_for result maps the resolved key k to exactly the
duplicate-free set of modules transitively reachable from k along
dependency edges. -/
theorem get_deps_for_closure (ki : KernelInfo) (cmd : String → CmdResult)
    (h : String → Nat) (fuel : Nat) (names : List String) (res : Index)
    (k : String) (deps : List String)
    (hc : Consistent ki.deplist = true) (hr : rankOk ki.deplist h = true)
    (hbound : ∀ p ∈ ki.deplist, h p.1 + 1 ≤ 2 * fuel)
    (hres : get_deps_for ki cmd fuel names = Except.ok res)
    (hmem : (k, deps) ∈ res) :
    deps.Nodup ∧ ∀ m, m ∈ deps ↔ Relation.TransGen (Edge ki.deplist) k m := by
  have hg := getDepsForAux_inv ki cmd fuel names [] res
    (by intro k' d' h'; cases h') hres k deps hmem
  have hks : (idxFind ki.deplist k).isSome := get_mod_dep_ok_find hg
  obtain ⟨mdeps, hf⟩ := Option.isSome_iff_exists.mp hks
  have hb : h k + 1 ≤ 2 * fuel := by
    obtain ⟨p, hp, hpk, -⟩ := idxFind_entry hf
    have hbp := hbound p hp
    rw [hpk] at hbp
    exact hbp
  obtain ⟨r2, hr2, hn2, hx2⟩ := get_mod_dep_char hc hr fuel k [] mdeps hf hb
  rw [hg] at hr2
  obtain rfl : deps = r2 := Except.ok.inj hr2
  refine ⟨hn2 List.nodup_nil, ?_⟩
  intro m
  rw [hx2 m]
  simp

/-- Witness for C1: the diamond index; the closure of kernel/A.ko is exactly
B, D, C, each once. -/
theorem get_deps_for_closure_witness :
    Consistent dKi.deplist = true ∧ rankOk dKi.deplist dRank = true ∧
    (∀ p ∈ dKi.deplist, dRank p.1 + 1 ≤ 2 * 2) ∧
    get_deps_for dKi emptyCmd 2 ["kernel/A.ko"] =
      Except.ok [("kernel/A.ko", ["kernel/B.ko", "kernel/D.ko", "kernel/C.ko"])] ∧
    ("kernel/A.ko", ["kernel/B.ko", "kernel/D.ko", "kernel/C.ko"]) ∈
      [("kernel/A.ko", ["kernel/B.ko", "kernel/D.ko", "kernel/C.ko"])] ∧
    (["kernel/B.ko", "kernel/D.ko", "kernel/C.ko"].Nodup ∧
      ∀ m, m ∈ ["kernel/B.ko", "kernel/D.ko", "kernel/C.ko"] ↔
        Relation.TransGen (Edge dKi.deplist) "kernel/A.ko" m) :=
  ⟨by decide, by decide, by decide, rfl, by decide,
   get_deps_for_closure dKi emptyCmd dRank 2 ["kernel/A.ko"]
     [("kernel/A.ko", ["kernel/B.ko", "kernel/D.ko", "kernel/C.ko"])]
     "kernel/A.ko" ["kernel/B.ko", "kernel/D.ko", "kernel/C.ko"]
     (by decide) (by decide) (by decide) rfl (by decide)⟩

/-- Claim C2 (confirmed): on an internally consistent index whose dependency
relation is acyclic (witnessed by a rank function), the recursive traversal
get_mod_dep succeeds on every key of the index once the fuel dominates the
rank: the embedded recursion terminates under the acyclicity precondition
even though it tracks no visited set. -/
theorem get_mod_dep_total (idx : Index) (h : String → Nat) (fuel : Nat)
    (name : String) (mods : List String)
    (hc : Consistent idx = true) (hr : rankOk idx h = true)
    (hbound : ∀ p ∈ idx, h p.1 + 1 ≤ 2 * fuel)
    (hname : (idxFind idx name).isSome) :
    ∃ r, get_mod_dep idx fuel name mods = Except.ok r := by
  obtain ⟨mdeps, hf⟩ := Option.isSome_iff_exists.mp hname
  have hb : h name + 1 ≤ 2 * fuel := by
    obtain ⟨p, hp, hpk, -⟩ := idxFind_entry hf
    have hbp := hbound p hp
    rw [hpk] at hbp
    exact hbp
  obtain ⟨r, hrr, -, -⟩ := get_mod_dep_char hc hr fuel name mods mdeps hf hb
  exact ⟨r, hrr⟩

/-- Witness for C2 at the diamond index. -/
theorem get_mod_dep_total_witness :
    Consistent dIdx = true ∧ rankOk dIdx dRank = true ∧
    (∀ p ∈ dIdx, dRank p.1 + 1 ≤ 2 * 2) ∧ (idxFind dIdx "kernel/A.ko").isSome ∧
    (∃ r, get_mod_dep dIdx 2 "kernel/A.ko" [] = Except.ok r) :=
  ⟨by decide, by decide, by decide, by decide,
   get_mod_dep_total dIdx dRank 2 "kernel/A.ko" []
     (by decide) (by decide) (by decide) (by decide)⟩

/-- Claim C3 (confirmed): on an internally consistent index both lookups of
the traversal always succeed: applied to any key of the index, get_mod_dep
never returns the missing-key panic, whatever the fuel. -/
theorem get_mod_dep_no_missing_panic (idx : Index) (fuel : Nat) (name : String)
    (mods : List String) (hc : Consistent idx = true)
    (hname : (idxFind idx name).isSome) :
    get_mod_dep idx fuel name mods ≠ Except.error EmbErr.missingKey :=
  get_mod_dep_no_missing hc fuel name mods hname

/-- Witness for C3 at the diamond index. -/
theorem get_mod_dep_no_missing_panic_witness :
    Consistent dIdx = true ∧ (idxFind dIdx "kernel/A.ko").isSome ∧
    get_mod_dep dIdx 1 "kernel/A.ko" [] ≠ Except.error EmbErr.missingKey :=
  ⟨by decide, by decide,
   get_mod_dep_no_missing_panic dIdx 1 "kernel/A.ko" [] (by decide) (by decide)⟩

/-- Counterexample to claim C4 as stated: with an empty index (no scan tier
can match) and an external lookup that fails to execute, name resolution
does not return a result: it hits the todo panic, modelled as the
externalFail error. -/
theorem expand_external_failure_cex :
    expand_module_name nilKi CmdResult.execFail "x" =
      Except.error EmbErr.externalFail := rfl

/-- Claim C4 (corrected): for every context and input name, whenever the
external metadata lookup executes and its output decodes, name resolution
returns a result, and the result is either a key of the dependency index or
the original input name unchanged (the fallback that callers detect via the
path separator); when the lookup fails to execute or to decode, the source
instead panics (todo!). -/
theorem expand_resolution_total_on_ok (ki : KernelInfo) (out : String) (name : String) :
    ∃ r, expand_module_name ki (CmdResult.ok out) name = Except.ok r ∧
      (r ∈ ki.deplist.map Prod.fst ∨ r = name) :=
  expand_ok_total ki out name

/-- Counterexample to claim C5 as stated: querying sun_rpc against tierKi
returns mm/sun-rpc.ko, which matches only the dash-substituted variant,
even though net/sun_rpc.ko matches the exact normalized name. -/
theorem expand_tier_order_cex :
    expand_module_name tierKi (CmdResult.ok "") "sun_rpc" = Except.ok "mm/sun-rpc.ko" ∧
    strEndsWith "net/sun_rpc.ko" (normName tierKi "sun_rpc") = true ∧
    strEndsWith "mm/sun-rpc.ko" (normName tierKi "sun_rpc") = false ∧
    ("mm/sun-rpc.ko" : String) ≠ "net/sun_rpc.ko" :=
  ⟨rfl, rfl, rfl, by decide⟩

/-- Claim C5 (corrected): the exact-suffix test and the underscore-to-dash
fallback are a single pass over the index keys testing both variants at
once, first matching key winning: if some key ends with the exact
normalized name, resolution returns a key matching the exact name or the
dash variant; it need not be an exact-suffix match when a dash-variant key
comes earlier in the key order. -/
theorem expand_scan_single_pass (ki : KernelInfo) (cmdres : CmdResult) (name : String)
    (h1 : strStartsWith (extName ki name) "kernel/" = false)
    (h2 : ∃ k ∈ ki.deplist.map Prod.fst, strEndsWith k (normName ki name) = true) :
    ∃ k, expand_module_name ki cmdres name = Except.ok k ∧
      k ∈ ki.deplist.map Prod.fst ∧
      (strEndsWith k (normName ki name) = true ∨
       strEndsWith k (strReplace (normName ki name) "_" "-") = true) :=
  expand_scan_first_match ki cmdres name h1 h2

/-- Witness for C5 at tierKi. -/
theorem expand_scan_single_pass_witness :
    strStartsWith (extName tierKi "sun_rpc") "kernel/" = false ∧
    (∃ k ∈ tierKi.deplist.map Prod.fst,
      strEndsWith k (normName tierKi "sun_rpc") = true) ∧
    (∃ k, expand_module_name tierKi (CmdResult.ok "") "sun_rpc" = Except.ok k ∧
      k ∈ tierKi.deplist.map Prod.fst ∧
      (strEndsWith k (normName tierKi "sun_rpc") = true ∨
       strEndsWith k (strReplace (normName tierKi "sun_rpc") "_" "-") = true)) :=
  ⟨rfl, ⟨"net/sun_rpc.ko", by decide, rfl⟩,
   expand_scan_single_pass tierKi (CmdResult.ok "") "sun_rpc" rfl
     ⟨"net/sun_rpc.ko", by decide, rfl⟩⟩

/-- Claim C6 (confirmed): a requested name whose resolution yields no
path-qualified key is silently dropped: the whole query returns exactly
what it returns without that name, so the name contributes no entry and
causes no error, regardless of the other names in the list. -/
theorem get_deps_for_skips_unresolved (ki : KernelInfo) (cmd : String → CmdResult)
    (fuel : Nat) (l1 l2 : List String) (u r : String)
    (hres : expand_module_name ki (cmd u) u = Except.ok r)
    (hnos : strContainsChar r '/' = false) :
    get_deps_for ki cmd fuel (l1 ++ u :: l2) = get_deps_for ki cmd fuel (l1 ++ l2) :=
  getDepsForAux_skip ki cmd fuel u r hres hnos l1 l2 []

/-- Witness for C6: the unresolvable name u is dropped from a query. -/
theorem get_deps_for_skips_unresolved_witness :
    expand_module_name nilKi (emptyCmd "u") "u" = Except.ok "u" ∧
    strContainsChar "u" '/' = false ∧
    get_deps_for nilKi emptyCmd 1 ["u"] = get_deps_for nilKi emptyCmd 1 [] :=
  ⟨rfl, rfl, get_deps_for_skips_unresolved nilKi emptyCmd 1 [] [] "u" "u" rfl rfl⟩

/-- Counterexample to claim C7 as stated: resolving the canonical key
kernel/a/b.ko of canKi returns a different key when the external lookup
output points at kernel/c/d.ko. -/
theorem expand_canonical_cex :
    expand_module_name canKi (CmdResult.ok "filename:/lib/modules/v/kernel/c/d.ko")
      "kernel/a/b.ko" = Except.ok "kernel/c/d.ko" ∧
    "kernel/a/b.ko" ∈ canKi.deplist.map Prod.fst ∧
    ("kernel/c/d.ko" : String) ≠ "kernel/a/b.ko" :=
  ⟨rfl, by decide, by decide⟩

/-- Claim C7 (corrected): resolving a canonical key k of the index (one that
ends with the module extension and starts with "kernel/") returns k
unchanged provided the external metadata lookup output does not name a
different existing key (in particular whenever its parse yields nothing or
k itself); a canonical key skips the suffix scan entirely, so the result
depends on the external lookup. -/
theorem expand_canonical_idempotent (ki : KernelInfo) (out : String) (k : String)
    (_hk : k ∈ ki.deplist.map Prod.fst)
    (hext : strEndsWith k ki.ext = true)
    (hpre : strStartsWith k "kernel/" = true)
    (hfind : findModinfoKey ki out = none ∨ findModinfoKey ki out = some k) :
    expand_module_name ki (CmdResult.ok out) k = Except.ok k :=
  expand_canonical_unchanged ki out k hext hpre hfind

/-- Witness for C7 at canKi with empty lookup output. -/
theorem expand_canonical_idempotent_witness :
    "kernel/a/b.ko" ∈ canKi.deplist.map Prod.fst ∧
    strEndsWith "kernel/a/b.ko" canKi.ext = true ∧
    strStartsWith "kernel/a/b.ko" "kernel/" = true ∧
    (findModinfoKey canKi "" = none ∨ findModinfoKey canKi "" = some "kernel/a/b.ko") ∧
    expand_module_name canKi (CmdResult.ok "") "kernel/a/b.ko" = Except.ok "kernel/a/b.ko" :=
  ⟨by decide, rfl, rfl, Or.inl rfl,
   expand_canonical_idempotent canKi "" "kernel/a/b.ko" (by decide) rfl rfl (Or.inl rfl)⟩

/-- Counterexample to claim C8 as stated: in a descriptor whose first record
foo does not contain .ko while the second record kernel/a/b.ko.zst does,
the frozen extension is .ko (from the first record), not .ko.zst (from the
first record containing .ko). -/
theorem load_ext_first_record_cex :
    (load_deps "foo: \nkernel/a/b.ko.zst: ").map KernelInfo.ext = Except.ok ".ko" ∧
    (".ko" : String) ≠ ".ko.zst" ∧
    strContainsSub "foo" ".ko" = false ∧
    strContainsSub "kernel/a/b.ko.zst" ".ko" = true :=
  ⟨rfl, by decide, rfl, rfl⟩

/-- Claim C8 (corrected): the module extension is inferred once, from the
first descriptor record (with a colon) whether or not its path contains
.ko: it becomes .ko plus everything after the last .ko of that record's
file name (just .ko when absent), and is frozen for the whole context;
consequently, for a descriptor whose first entry is kernel/a/b.ko.zst: ...,
the extension is .ko.zst and resolving the bare name b yields
kernel/a/b.ko.zst. -/
theorem load_ext_frozen_from_first (line l r : String) (rest : List String)
    (ki : KernelInfo)
    (hsplit : strSplitOnce line ":" = some (l, r))
    (hok : loadDepsL (line :: rest) = Except.ok ki) :
    some ki.ext = get_fext (fileNameOpt (strTrim l)) ∧
    (load_deps "kernel/a/b.ko.zst: " =
      Except.ok { ext := ".ko.zst", deplist := [("kernel/a/b.ko.zst", [])],
                  lookup_deplist := [] } ∧
     ∀ cm, expand_module_name
       { ext := ".ko.zst", deplist := [("kernel/a/b.ko.zst", [])], lookup_deplist := [] }
       cm "b" = Except.ok "kernel/a/b.ko.zst") :=
  ⟨loadDepsL_ext_first hsplit hok, rfl, fun _ => rfl⟩

/-- Witness for C8 on a one-line descriptor. -/
theorem load_ext_frozen_from_first_witness :
    strSplitOnce "kernel/x/y.ko: " ":" = some ("kernel/x/y.ko", " ") ∧
    loadDepsL ["kernel/x/y.ko: "] =
      Except.ok { ext := ".ko", deplist := [("kernel/x/y.ko", [])], lookup_deplist := [] } ∧
    (some ({ ext := ".ko", deplist := [("kernel/x/y.ko", [])],
             lookup_deplist := [] } : KernelInfo).ext =
       get_fext (fileNameOpt (strTrim "kernel/x/y.ko")) ∧
     (load_deps "kernel/a/b.ko.zst: " =
       Except.ok { ext := ".ko.zst", deplist := [("kernel/a/b.ko.zst", [])],
                   lookup_deplist := [] } ∧
      ∀ cm, expand_module_name
        { ext := ".ko.zst", deplist := [("kernel/a/b.ko.zst", [])], lookup_deplist := [] }
        cm "b" = Except.ok "kernel/a/b.ko.zst")) :=
  ⟨rfl, rfl,
   load_ext_frozen_from_first "kernel/x/y.ko: " "kernel/x/y.ko" " " []
     { ext := ".ko", deplist := [("kernel/x/y.ko", [])], lookup_deplist := [] } rfl rfl⟩

/-- Claim C9 (confirmed): live-table parsing follows the six-field format:
the sunrpc example line parses to the stated record, the ext4 line yields
no dependents, any line without exactly six fields is fatal, and one fatal
line makes the whole read fail with no partial result. -/
theorem lsmod_line_parsing :
    parseLsmodLine "sunrpc 69632 2 nfsd,lockd, 0 0xffffffffc0a12000" =
      Except.ok { name := "sunrpc", mem_size := 69632,
                  mem_offset := 0xffffffffc0a12000, instances := 2,
                  dependencies := ["nfsd", "lockd"] } ∧
    parseLsmodLine "ext4 761856 1 - 0 0xffffffffc0b00000" =
      Except.ok { name := "ext4", mem_size := 761856,
                  mem_offset := 0xffffffffc0b00000, instances := 1,
                  dependencies := [] } ∧
    (∀ line, (strSplitOn line " ").length ≠ 6 →
      parseLsmodLine line = Except.error EmbErr.liveExit) ∧
    (∀ ls1 ls2 line e, parseLsmodLine line = Except.error e →
      ∃ e2, lsmodFromLines (ls1 ++ line :: ls2) = Except.error e2) :=
  ⟨rfl, rfl, fun _ h => parseLsmodLine_six h, lsmodFromLines_error⟩

/-- Witness for C9: a malformed line is fatal to the whole read. -/
theorem lsmod_line_parsing_witness :
    (strSplitOn "garbage" " ").length ≠ 6 ∧
    parseLsmodLine "garbage" = Except.error EmbErr.liveExit ∧
    (∃ e2, lsmodFromLines ["garbage"] = Except.error e2) :=
  ⟨by decide, lsmod_line_parsing.2.2.1 "garbage" (by decide),
   lsmod_line_parsing.2.2.2 [] [] "garbage" EmbErr.liveExit
     (lsmod_line_parsing.2.2.1 "garbage" (by decide))⟩

/-- Claim C10 (confirmed): descriptor parsing is not total over
well-formed-looking input: on a descriptor whose single line contains a
colon but lists a dependency path whose base file name has no dot,
building the context fails with the panic of the reverse dependent-names
indexing (the unwrap of split_once at a dot), modelled as the depNameNoDot
error. -/
theorem load_deps_dep_name_panic :
    2 ≤ (strSplitOn "kernel/drivers/a.ko: kernel/x/noext" ":").length ∧
    strContainsChar ((strSplitOn "kernel/x/noext" "/").getLastD "") '.' = false ∧
    load_deps "kernel/drivers/a.ko: kernel/x/noext" = Except.error EmbErr.depNameNoDot :=
  ⟨by decide, rfl, rfl⟩

end Kmoddep
